import Mathlib

/-!
Verification development for the SteamGriddle repository
(src/steamgriddb_setter.py).

The heart of the program is `SteamShortcutManager.get_non_steam_games`,
which extracts non-Steam game records from the binary `shortcuts.vdf`
container by running the Python regex

  rb"\x00\x02appid\x00(.{4})\x01appname\x00([^\x08]+?)\x00\x01exe\x00
     ([^\x08]+?)\x00\x01.+?\x00tags\x00(?:\x01([^\x08]+?)|)\x08\x08"

with flags DOTALL and IGNORECASE over the raw bytes (re.findall), then
decoding each match: the 4 captured appid bytes as an unsigned
little-endian integer, the appname and exe captures as UTF-8, and the
derived grid id as (app_id << 32) | 0x02000000.  Any exception raised
while processing a file (including a UnicodeDecodeError from one record)
is caught at file level and yields an empty list.

The shallow embedding below represents file bytes as `List Nat` and
implements the backtracking search of Python's regex engine directly,
specialised to this single fixed pattern: every lazy quantifier tries
the shortest extent first and extends only when the whole remainder of
the pattern fails, and `re.findall` scans left to right, resuming after
the end of each non-overlapping match.
-/

namespace SteamGriddle

/-- ASCII lowercasing, the case folding used by `re.IGNORECASE`
on bytes patterns. -/
def lowerB (b : Nat) : Nat := if 65 ≤ b ∧ b ≤ 90 then b + 32 else b

/-- Case-insensitive byte comparison (pattern byte vs subject byte). -/
def ciEq (p b : Nat) : Bool := lowerB p == lowerB b

/-- Match a literal byte sequence (case-insensitively, as the pattern is
compiled with IGNORECASE) at the head of the subject; returns the rest. -/
def matchLit : List Nat → List Nat → Option (List Nat)
  | [], s => some s
  | _ :: _, [] => none
  | p :: ps, b :: bs => if ciEq p b then matchLit ps bs else none

/-- Pattern literal for the start of an entry: the bytes
0x00 0x02 "appid" 0x00 preceding the 4-byte appid capture. -/
def appidKey : List Nat := [0, 2, 97, 112, 112, 105, 100, 0]

/-- Pattern literal 0x01 "appname" 0x00 preceding the appname capture. -/
def appnameKey : List Nat := [1, 97, 112, 112, 110, 97, 109, 101, 0]

/-- Pattern literal 0x00 0x01 "exe" 0x00 between the appname capture and
the exe capture. -/
def nameTerm : List Nat := [0, 1, 101, 120, 101, 0]

/-- Pattern literal 0x00 0x01 between the exe capture and the lazy gap. -/
def exeTerm : List Nat := [0, 1]

/-- Pattern literal 0x00 "tags" 0x00 terminating the lazy gap. -/
def gapTerm : List Nat := [0, 116, 97, 103, 115, 0]

/-- Recognise the final 0x08 0x08 of the pattern at the head of the
subject; returns the rest. -/
def isEnd2 : List Nat → Option (List Nat)
  | a :: b :: rest => if a = 8 ∧ b = 8 then some rest else none
  | _ => none

/-- Lazy match of the optional tags value: one-or-more bytes other than
0x08 (shortest first), immediately followed by 0x08 0x08.  Returns the
captured value and the rest after the two terminator bytes. -/
def tryTagVal : List Nat → Option (List Nat × List Nat)
  | [] => none
  | b :: bs =>
    if b = 8 then none
    else
      match isEnd2 bs with
      | some rest => some ([b], rest)
      | none =>
        match tryTagVal bs with
        | some (v, r) => some (b :: v, r)
        | none => none

/-- The tail of the pattern after the "tags" key:
(?:\x01([^\x08]+?)|)\x08\x08.  The first alternative (0x01 then a lazy
non-0x08 run) is preferred; the empty alternative then requires the
0x08 0x08 terminator directly.  Returns the group-4 capture (empty bytes
when the group did not participate, as re.findall reports it) and the
rest. -/
def matchTagsEnd (s : List Nat) : Option (List Nat × List Nat) :=
  match s with
  | b :: bs =>
    if b = 1 then
      match tryTagVal bs with
      | some p => some p
      | none =>
        match isEnd2 s with
        | some rest => some ([], rest)
        | none => none
    else
      match isEnd2 s with
      | some rest => some ([], rest)
      | none => none
  | [] => none

/-- Continuation tried after each lazy extension of the gap: the literal
0x00 "tags" 0x00 followed by the pattern tail. -/
def gapCont (bs : List Nat) : Option (List Nat × List Nat) :=
  match matchLit gapTerm bs with
  | some r => matchTagsEnd r
  | none => none

/-- Lazy match of ".+?" (DOTALL: any byte, one or more, shortest first)
followed by the 0x00 "tags" 0x00 tail. -/
def tryGap : List Nat → Option (List Nat × List Nat)
  | [] => none
  | _ :: bs =>
    match gapCont bs with
    | some p => some p
    | none => tryGap bs

/-- Continuation tried after each lazy extension of the exe value: the
literal 0x00 0x01 followed by the gap. -/
def exeCont (bs : List Nat) : Option (List Nat × List Nat) :=
  match matchLit exeTerm bs with
  | some r => tryGap r
  | none => none

/-- Lazy match of the exe capture: one-or-more bytes other than 0x08
(shortest first), followed by the rest of the pattern.  Returns the
captured exe bytes, the group-4 capture and the rest. -/
def tryExeVal : List Nat → Option (List Nat × List Nat × List Nat)
  | [] => none
  | b :: bs =>
    if b = 8 then none
    else
      match exeCont bs with
      | some (v4, r) => some ([b], v4, r)
      | none =>
        match tryExeVal bs with
        | some (e, v4, r) => some (b :: e, v4, r)
        | none => none

/-- Continuation tried after each lazy extension of the appname value:
the literal 0x00 0x01 "exe" 0x00 followed by the exe value. -/
def nameCont (bs : List Nat) : Option (List Nat × List Nat × List Nat) :=
  match matchLit nameTerm bs with
  | some r => tryExeVal r
  | none => none

/-- Lazy match of the appname capture: one-or-more bytes other than 0x08
(shortest first), followed by the rest of the pattern.  Returns the
captured appname bytes, exe bytes, group-4 capture and the rest. -/
def tryNameVal : List Nat → Option (List Nat × List Nat × List Nat × List Nat)
  | [] => none
  | b :: bs =>
    if b = 8 then none
    else
      match nameCont bs with
      | some (e, v4, r) => some ([b], e, v4, r)
      | none =>
        match tryNameVal bs with
        | some (n, e, v4, r) => some (b :: n, e, v4, r)
        | none => none

/-- One anchored attempt of the whole regex at the current position:
the appid key literal, the 4-byte appid capture (any bytes, DOTALL),
the appname key literal, then the lazy-value cascade.  Returns the four
captures and the rest of the subject after the match. -/
def matchEntry (s : List Nat) :
    Option ((List Nat × List Nat × List Nat × List Nat) × List Nat) :=
  match matchLit appidKey s with
  | none => none
  | some s1 =>
    match s1 with
    | b1 :: b2 :: b3 :: b4 :: s2 =>
      match matchLit appnameKey s2 with
      | none => none
      | some s3 =>
        match tryNameVal s3 with
        | some (n, e, v4, r) => some (([b1, b2, b3, b4], n, e, v4), r)
        | none => none
    | _ => none

/-- re.findall: scan left to right, attempting an anchored match at each
position; on success record the captures and resume after the match.
The fuel argument (instantiated with the subject length) keeps the
definition structurally recursive and hence kernel-computable. -/
def findAllAux : Nat → List Nat →
    List (List Nat × List Nat × List Nat × List Nat)
  | 0, _ => []
  | _ + 1, [] => []
  | fuel + 1, b :: tail =>
    match matchEntry (b :: tail) with
    | some (g, rest) => g :: findAllAux fuel rest
    | none => findAllAux fuel tail

/-- All matches of the shortcut-entry regex over the file bytes, in
stream order, as (appid bytes, appname bytes, exe bytes, tags bytes). -/
def findAll (s : List Nat) :
    List (List Nat × List Nat × List Nat × List Nat) :=
  findAllAux s.length s

/-! ### UTF-8 decoding (Python bytes.decode with the strict default) -/

/-- UTF-8 continuation byte test (0x80 to 0xBF). -/
def isCont (b : Nat) : Bool := decide (128 ≤ b ∧ b ≤ 191)

/-- Constraint on the first continuation byte of a 3-byte sequence;
0xE0 forbids overlong forms and 0xED forbids surrogates, exactly as
Python's strict UTF-8 decoder does. -/
def thirdByteOk (b c1 : Nat) : Bool :=
  if b = 224 then decide (160 ≤ c1 ∧ c1 ≤ 191)
  else if b = 237 then decide (128 ≤ c1 ∧ c1 ≤ 159)
  else isCont c1

/-- Constraint on the first continuation byte of a 4-byte sequence;
0xF0 forbids overlong forms and 0xF4 caps code points at U+10FFFF. -/
def fourthByteOk (b c1 : Nat) : Bool :=
  if b = 240 then decide (144 ≤ c1 ∧ c1 ≤ 191)
  else if b = 244 then decide (128 ≤ c1 ∧ c1 ≤ 143)
  else isCont c1

/-- Strict UTF-8 decoding of a byte list, as bytes.decode("utf-8")
performs it: `none` models a UnicodeDecodeError.  The fuel argument
(instantiated with the list length, an upper bound on the number of
decoded characters) keeps the recursion structural. -/
def utf8DecodeAux : Nat → List Nat → Option (List Char)
  | _, [] => some []
  | 0, _ :: _ => none
  | fuel + 1, b :: bs =>
    if b ≤ 127 then
      match utf8DecodeAux fuel bs with
      | some cs => some (Char.ofNat b :: cs)
      | none => none
    else if 194 ≤ b ∧ b ≤ 223 then
      match bs with
      | c1 :: bs2 =>
        if isCont c1 then
          match utf8DecodeAux fuel bs2 with
          | some cs => some (Char.ofNat ((b - 192) * 64 + (c1 - 128)) :: cs)
          | none => none
        else none
      | [] => none
    else if 224 ≤ b ∧ b ≤ 239 then
      match bs with
      | c1 :: c2 :: bs2 =>
        if thirdByteOk b c1 && isCont c2 then
          match utf8DecodeAux fuel bs2 with
          | some cs =>
            some (Char.ofNat
              ((b - 224) * 4096 + (c1 - 128) * 64 + (c2 - 128)) :: cs)
          | none => none
        else none
      | _ => none
    else if 240 ≤ b ∧ b ≤ 244 then
      match bs with
      | c1 :: c2 :: c3 :: bs2 =>
        if fourthByteOk b c1 && isCont c2 && isCont c3 then
          match utf8DecodeAux fuel bs2 with
          | some cs =>
            some (Char.ofNat
              ((b - 240) * 262144 + (c1 - 128) * 4096 +
                (c2 - 128) * 64 + (c3 - 128)) :: cs)
          | none => none
        else none
      | _ => none
    else none

/-- Strict UTF-8 decoding of a byte list. -/
def utf8Decode (l : List Nat) : Option (List Char) :=
  utf8DecodeAux l.length l

/-! ### Record decoding and the extractor -/

/-- int.from_bytes(b, byteorder="little", signed=False). -/
def fromLEBytes (l : List Nat) : Nat :=
  l.foldr (fun b acc => b + 256 * acc) 0

/-- The derived grid identifier of line 154:
grid_id = (app_id << 32) | 0x02000000. -/
def grid_id_of (app_id : Nat) : Nat :=
  Nat.lor (app_id <<< 32) 0x02000000

/-- The decoding loop of get_non_steam_games over the regex matches:
each match yields (name, exe, app_id, grid_id).  A UTF-8 decode failure
raises, which the surrounding file-level `except` turns into an empty
result; `none` models that raised exception. -/
def decodeGames :
    List (List Nat × List Nat × List Nat × List Nat) →
    Option (List (String × String × Nat × Nat))
  | [] => some []
  | (ab, n, e, _) :: ms =>
    match utf8Decode n with
    | none => none
    | some nC =>
      match utf8Decode e with
      | none => none
      | some eC =>
        match decodeGames ms with
        | some gs =>
          some ((String.mk nC, String.mk eC,
                 fromLEBytes ab, grid_id_of (fromLEBytes ab)) :: gs)
        | none => none

/-- SteamShortcutManager.get_non_steam_games, lines 124 to 162: the
input is the shortcuts.vdf content, `none` when the file is absent
(shortcut_path.is_file() is false).  An absent file returns [].  Any
exception while decoding (modelled by decodeGames returning none) is
caught and returns []. -/
def get_non_steam_games (file : Option (List Nat)) :
    List (String × String × Nat × Nat) :=
  match file with
  | none => []
  | some bytes =>
    match decodeGames (findAll bytes) with
    | some gs => gs
    | none => []

/-! ### Well-formed shortcut entries (for the container-level theorems) -/

/-- One shortcut entry of the container, in the shape the regex was
written for: 4 appid bytes, an appname value, an exe value, the
unparsed optional-field region (gap) between the exe terminator and the
"tags" key, and an optional tags value. -/
structure SEntry where
  appid : List Nat
  name : List Nat
  exe : List Nat
  gap : List Nat
  tagv : Option (List Nat)

/-- Bytes of the optional tags value region: empty, or 0x01 followed by
the value. -/
def tagPart : Option (List Nat) → List Nat
  | none => []
  | some tv => 1 :: tv

/-- The byte encoding of one shortcut entry:
0x00 0x02 "appid" 0x00, the 4 appid bytes, 0x01 "appname" 0x00, the
name value, 0x00, 0x01 "exe" 0x00, the exe value, 0x00 0x01, the
optional-field region, 0x00 "tags" 0x00, the optional tags value, and
the double end-of-object terminator 0x08 0x08. -/
def mkEntry (e : SEntry) : List Nat :=
  appidKey ++ e.appid ++ appnameKey ++ e.name ++ nameTerm ++ e.exe ++
    exeTerm ++ e.gap ++ gapTerm ++ tagPart e.tagv ++ [8, 8]

/-- The capture tuple the regex produces for a well-formed entry. -/
def grpOf (e : SEntry) : List Nat × List Nat × List Nat × List Nat :=
  (e.appid, e.name, e.exe, (tagPart e.tagv).drop 1)

/-- The record the extractor produces for a well-formed entry. -/
def recordOf (e : SEntry) : String × String × Nat × Nat :=
  (String.mk ((utf8Decode e.name).getD []),
   String.mk ((utf8Decode e.exe).getD []),
   fromLEBytes e.appid, grid_id_of (fromLEBytes e.appid))

/-- Constraint on the optional tags value: if present it is nonempty
and free of the 0x08 terminator byte. -/
def tagOk : Option (List Nat) → Prop
  | none => True
  | some tv => tv ≠ [] ∧ ∀ b ∈ tv, b ≠ 8

instance instDecTagOk (o : Option (List Nat)) : Decidable (tagOk o) :=
  match o with
  | none => isTrue trivial
  | some tv => inferInstanceAs (Decidable (tv ≠ [] ∧ ∀ b ∈ tv, b ≠ 8))

/-- Well-formedness of a shortcut entry: the appid field is 4 bytes;
the name and exe values are nonempty and free of NUL (their own
terminator) and of the 0x08 end-of-object byte; the optional-field
region is nonempty and free of NUL; the tags value, when present, is
nonempty and free of 0x08; and the name and exe values decode as
UTF-8. -/
def WFEntry (e : SEntry) : Prop :=
  e.appid.length = 4 ∧
  e.name ≠ [] ∧ (∀ b ∈ e.name, b ≠ 0 ∧ b ≠ 8) ∧
  e.exe ≠ [] ∧ (∀ b ∈ e.exe, b ≠ 0 ∧ b ≠ 8) ∧
  e.gap ≠ [] ∧ (∀ b ∈ e.gap, b ≠ 0) ∧
  tagOk e.tagv ∧
  (utf8Decode e.name).isSome = true ∧ (utf8Decode e.exe).isSome = true

instance instDecWFEntry (e : SEntry) : Decidable (WFEntry e) := by
  unfold WFEntry
  infer_instance

/-- Concrete entry: appid 1, appname "h", exe "x", gap "g", no tags. -/
def entA : SEntry := ⟨[1, 0, 0, 0], [104], [120], [103], none⟩

/-- Concrete entry: appid 2, appname "w", exe "y", gap "z", tags "t". -/
def entB : SEntry := ⟨[2, 0, 0, 0], [119], [121], [122], some [116]⟩

/-- Concrete entry whose appname byte 0xFF is invalid UTF-8 (the regex
still matches it, since 0xFF is neither NUL nor 0x08). -/
def entBad : SEntry := ⟨[3, 0, 0, 0], [255], [121], [122], none⟩

/-- Concrete entry with a zero-length appname value. -/
def entNoName : SEntry := ⟨[1, 0, 0, 0], [], [120], [105], none⟩

/-- Concrete entry whose appname value contains the byte 0x08. -/
def entBS : SEntry := ⟨[1, 0, 0, 0], [65, 66, 8, 67], [120], [105], none⟩

/-! ### Orchestration models (main, lines 165 to 313) -/

/-- The API paths queried for artwork once a game is resolved to a
SteamGridDB id (get_grid_image, get_hero_image, get_logo_image, called
at lines 265 to 267): three art categories. -/
def artQueryPaths (game_id : Nat) : List String :=
  ["grids/game/" ++ toString game_id,
   "heroes/game/" ++ toString game_id,
   "logos/game/" ++ toString game_id]

/-- Python truthiness of an optional string (None and "" are falsy). -/
def isTruthy : Option String → Bool
  | none => false
  | some s => !(s == "")

/-- The per-game download step of main, lines 264 to 298, as the list
of (file name, url) downloads attempted inside the grid directory.
Line 269: a missing grid url skips the whole game.  Otherwise the grid
image goes to "{app_id}p.png", the hero image (if any) to
"{app_id}_hero.png", and the logo image (if any) to
"{app_id}_logo.png". -/
def downloadActions (app_id : Nat)
    (grid_url hero_url logo_url : Option String) :
    List (String × String) :=
  if isTruthy grid_url = false then []
  else
    (match grid_url with
     | some g => if g == "" then [] else [(toString app_id ++ "p.png", g)]
     | none => []) ++
    (match hero_url with
     | some h => if h == "" then [] else [(toString app_id ++ "_hero.png", h)]
     | none => []) ++
    (match logo_url with
     | some l => if l == "" then [] else [(toString app_id ++ "_logo.png", l)]
     | none => [])

/-- str.isdigit for the ASCII folder names of the userdata directory. -/
def isDigits (s : String) : Bool :=
  !(s == "") && s.data.all (fun c => c.isDigit)

/-- SteamShortcutManager.find_user_dirs, lines 116 to 122: the numeric
subdirectories of userdata, given (name, is_dir) entries; an absent
userdata directory yields []. -/
def find_user_dirs (userdataExists : Bool)
    (entries : List (String × Bool)) : List String :=
  if userdataExists then
    (entries.filter (fun d => d.2 && isDigits d.1)).map (fun d => d.1)
  else []

/-- The exit code of main, lines 201 to 313: 1 when the Steam
installation is not found (the ValueError of line 101 caught at line
207), 1 when find_user_dirs returns no user directories (lines 215 to
217), and 0 otherwise (the batch always falls through to return 0 at
line 313, whatever happens per game). -/
def mainExitCode (steamFound userdataExists : Bool)
    (entries : List (String × Bool)) : Nat :=
  if steamFound = false then 1
  else if find_user_dirs userdataExists entries = [] then 1
  else 0

/-- The process exit code including the dependency check of lines 316
to 323: a missing requests dependency exits 1 before main runs. -/
def programExitCode (requestsInstalled steamFound userdataExists : Bool)
    (entries : List (String × Bool)) : Nat :=
  if requestsInstalled = false then 1
  else mainExitCode steamFound userdataExists entries

/-! ### Structural lemmas about the matcher -/

theorem ciEq_refl (b : Nat) : ciEq b b = true := by
  simp [ciEq]

theorem lowerB_ne_zero {b : Nat} (h : b ≠ 0) : lowerB b ≠ 0 := by
  unfold lowerB
  split <;> omega

theorem ciEq_zero_right {b : Nat} (h : b ≠ 0) : ciEq 0 b = false := by
  have h0 : lowerB 0 = 0 := by simp [lowerB]
  have h1 := lowerB_ne_zero h
  simp only [ciEq, h0, beq_eq_false_iff_ne]
  exact fun hc => h1 hc.symm

theorem matchLit_append (p s : List Nat) : matchLit p (p ++ s) = some s := by
  induction p with
  | nil => rfl
  | cons a p ih => simp [matchLit, ciEq_refl, ih]

theorem matchLit_spec {p s r : List Nat} (h : matchLit p s = some r) :
    r <:+ s ∧ r.length + p.length = s.length := by
  induction p generalizing s with
  | nil =>
    simp only [matchLit, Option.some.injEq] at h
    subst h
    exact ⟨List.suffix_refl _, by simp⟩
  | cons a p ih =>
    match s with
    | [] => simp [matchLit] at h
    | b :: bs =>
      simp only [matchLit] at h
      split at h
      · obtain ⟨hs, hl⟩ := ih h
        exact ⟨hs.trans (List.suffix_cons b bs), by simp; omega⟩
      · exact absurd h (by simp)

theorem isEnd2_spec {s r : List Nat} (h : isEnd2 s = some r) :
    r <:+ s ∧ r.length + 2 = s.length := by
  match s with
  | [] => simp [isEnd2] at h
  | [a] => simp [isEnd2] at h
  | a :: b :: t =>
    simp only [isEnd2] at h
    split at h
    · cases h
      exact ⟨(List.suffix_cons _ _).trans (List.suffix_cons _ _), by simp⟩
    · exact absurd h (by simp)

theorem isEnd2_ne {a : Nat} {l : List Nat} (h : a ≠ 8) :
    isEnd2 (a :: l) = none := by
  match l with
  | [] => rfl
  | b :: t => simp [isEnd2, h]

theorem tryTagVal_spec {s : List Nat} {v r : List Nat}
    (h : tryTagVal s = some (v, r)) : r <:+ s ∧ r.length < s.length := by
  induction s generalizing v r with
  | nil => simp [tryTagVal] at h
  | cons b bs ih =>
    simp only [tryTagVal] at h
    split at h
    · exact absurd h (by simp)
    · cases hE : isEnd2 bs with
      | some rest =>
        rw [hE] at h
        cases h
        obtain ⟨hs, hl⟩ := isEnd2_spec hE
        exact ⟨hs.trans (List.suffix_cons b bs), by simp; omega⟩
      | none =>
        rw [hE] at h
        cases hT : tryTagVal bs with
        | some p =>
          obtain ⟨v0, r0⟩ := p
          rw [hT] at h
          cases h
          obtain ⟨hs, hl⟩ := ih hT
          exact ⟨hs.trans (List.suffix_cons b bs), by simp; omega⟩
        | none => rw [hT] at h; exact absurd h (by simp)

theorem matchTagsEnd_spec {s : List Nat} {v r : List Nat}
    (h : matchTagsEnd s = some (v, r)) : r <:+ s ∧ r.length < s.length := by
  match s with
  | [] => simp [matchTagsEnd] at h
  | b :: bs =>
    simp only [matchTagsEnd] at h
    split at h
    · cases hT : tryTagVal bs with
      | some p =>
        obtain ⟨v0, r0⟩ := p
        rw [hT] at h
        cases h
        obtain ⟨hs, hl⟩ := tryTagVal_spec hT
        exact ⟨hs.trans (List.suffix_cons b bs), by simp; omega⟩
      | none =>
        rw [hT] at h
        cases hE : isEnd2 (b :: bs) with
        | some rest =>
          rw [hE] at h
          cases h
          obtain ⟨hs, hl⟩ := isEnd2_spec hE
          exact ⟨hs, by omega⟩
        | none => rw [hE] at h; exact absurd h (by simp)
    · cases hE : isEnd2 (b :: bs) with
      | some rest =>
        rw [hE] at h
        cases h
        obtain ⟨hs, hl⟩ := isEnd2_spec hE
        exact ⟨hs, by omega⟩
      | none => rw [hE] at h; exact absurd h (by simp)

theorem gapCont_spec {bs : List Nat} {v r : List Nat}
    (h : gapCont bs = some (v, r)) : r <:+ bs ∧ r.length < bs.length := by
  simp only [gapCont] at h
  cases hL : matchLit gapTerm bs with
  | some r2 =>
    rw [hL] at h
    obtain ⟨hs2, hl2⟩ := matchLit_spec hL
    obtain ⟨hs, hl⟩ := matchTagsEnd_spec h
    refine ⟨hs.trans hs2, ?_⟩
    simp [gapTerm] at hl2
    omega
  | none => rw [hL] at h; exact absurd h (by simp)

theorem tryGap_spec {s : List Nat} {v r : List Nat}
    (h : tryGap s = some (v, r)) : r <:+ s ∧ r.length < s.length := by
  induction s generalizing v r with
  | nil => simp [tryGap] at h
  | cons b bs ih =>
    simp only [tryGap] at h
    cases hC : gapCont bs with
    | some p =>
      obtain ⟨v0, r0⟩ := p
      rw [hC] at h
      cases h
      obtain ⟨hs, hl⟩ := gapCont_spec hC
      exact ⟨hs.trans (List.suffix_cons b bs), by simp; omega⟩
    | none =>
      rw [hC] at h
      obtain ⟨hs, hl⟩ := ih h
      exact ⟨hs.trans (List.suffix_cons b bs), by simp; omega⟩

theorem exeCont_spec {bs : List Nat} {v r : List Nat}
    (h : exeCont bs = some (v, r)) : r <:+ bs ∧ r.length < bs.length := by
  simp only [exeCont] at h
  cases hL : matchLit exeTerm bs with
  | some r2 =>
    rw [hL] at h
    obtain ⟨hs2, hl2⟩ := matchLit_spec hL
    obtain ⟨hs, hl⟩ := tryGap_spec h
    refine ⟨hs.trans hs2, ?_⟩
    simp [exeTerm] at hl2
    omega
  | none => rw [hL] at h; exact absurd h (by simp)

theorem tryExeVal_spec {s : List Nat} {e v r : List Nat}
    (h : tryExeVal s = some (e, v, r)) :
    (r <:+ s ∧ r.length < s.length) ∧ e ≠ [] ∧ ∀ b ∈ e, b ≠ 8 := by
  induction s generalizing e v r with
  | nil => simp [tryExeVal] at h
  | cons b bs ih =>
    simp only [tryExeVal] at h
    split at h
    · exact absurd h (by simp)
    · rename_i hb
      cases hC : exeCont bs with
      | some p =>
        obtain ⟨v0, r0⟩ := p
        rw [hC] at h
        cases h
        obtain ⟨hs, hl⟩ := exeCont_spec hC
        refine ⟨⟨hs.trans (List.suffix_cons b bs), by simp; omega⟩, by simp, ?_⟩
        intro x hx
        simp at hx
        omega
      | none =>
        rw [hC] at h
        cases hT : tryExeVal bs with
        | some p =>
          obtain ⟨e0, v0, r0⟩ := p
          rw [hT] at h
          cases h
          obtain ⟨⟨hs, hl⟩, hne, h8⟩ := ih hT
          refine ⟨⟨hs.trans (List.suffix_cons b bs), by simp; omega⟩, by simp, ?_⟩
          intro x hx
          simp at hx
          rcases hx with hx | hx
          · omega
          · exact h8 x hx
        | none => rw [hT] at h; exact absurd h (by simp)

theorem nameCont_spec {bs : List Nat} {e v r : List Nat}
    (h : nameCont bs = some (e, v, r)) :
    (r <:+ bs ∧ r.length < bs.length) ∧ e ≠ [] ∧ ∀ b ∈ e, b ≠ 8 := by
  simp only [nameCont] at h
  cases hL : matchLit nameTerm bs with
  | some r2 =>
    rw [hL] at h
    obtain ⟨hs2, hl2⟩ := matchLit_spec hL
    obtain ⟨⟨hs, hl⟩, hne, h8⟩ := tryExeVal_spec h
    refine ⟨⟨hs.trans hs2, ?_⟩, hne, h8⟩
    simp [nameTerm] at hl2
    omega
  | none => rw [hL] at h; exact absurd h (by simp)

theorem tryNameVal_spec {s : List Nat} {n e v r : List Nat}
    (h : tryNameVal s = some (n, e, v, r)) :
    (r <:+ s ∧ r.length < s.length) ∧
    (n ≠ [] ∧ ∀ b ∈ n, b ≠ 8) ∧ (e ≠ [] ∧ ∀ b ∈ e, b ≠ 8) := by
  induction s generalizing n e v r with
  | nil => simp [tryNameVal] at h
  | cons b bs ih =>
    simp only [tryNameVal] at h
    split at h
    · exact absurd h (by simp)
    · rename_i hb
      cases hC : nameCont bs with
      | some p =>
        obtain ⟨e0, v0, r0⟩ := p
        rw [hC] at h
        cases h
        obtain ⟨⟨hs, hl⟩, hne, h8⟩ := nameCont_spec hC
        refine ⟨⟨hs.trans (List.suffix_cons b bs), by simp; omega⟩,
          ⟨by simp, ?_⟩, hne, h8⟩
        intro x hx
        simp at hx
        omega
      | none =>
        rw [hC] at h
        cases hT : tryNameVal bs with
        | some p =>
          obtain ⟨n0, e0, v0, r0⟩ := p
          rw [hT] at h
          cases h
          obtain ⟨⟨hs, hl⟩, ⟨hn, h8n⟩, he⟩ := ih hT
          refine ⟨⟨hs.trans (List.suffix_cons b bs), by simp; omega⟩,
            ⟨by simp, ?_⟩, he⟩
          intro x hx
          simp at hx
          rcases hx with hx | hx
          · omega
          · exact h8n x hx
        | none => rw [hT] at h; exact absurd h (by simp)

theorem matchEntry_spec {s : List Nat}
    {ab n e v : List Nat} {r : List Nat}
    (h : matchEntry s = some ((ab, n, e, v), r)) :
    (r <:+ s ∧ r.length < s.length) ∧
    (ab.length = 4 ∧ ∀ b ∈ ab, b ∈ s) ∧
    (n ≠ [] ∧ ∀ b ∈ n, b ≠ 8) ∧ (e ≠ [] ∧ ∀ b ∈ e, b ≠ 8) := by
  simp only [matchEntry] at h
  cases hL1 : matchLit appidKey s with
  | none => simp only [hL1] at h; exact Option.noConfusion h
  | some s1 =>
    simp only [hL1] at h
    obtain ⟨hsuf1, hlen1⟩ := matchLit_spec hL1
    rcases s1 with _ | ⟨b1, _ | ⟨b2, _ | ⟨b3, _ | ⟨b4, s2⟩⟩⟩⟩
    · simp at h
    · simp at h
    · simp at h
    · simp at h
    · simp only at h
      cases hL2 : matchLit appnameKey s2 with
      | none => simp only [hL2] at h; exact Option.noConfusion h
      | some s3 =>
        simp only [hL2] at h
        obtain ⟨hsuf2, hlen2⟩ := matchLit_spec hL2
        cases hT : tryNameVal s3 with
        | some p =>
          obtain ⟨n0, e0, v0, r0⟩ := p
          simp only [hT, Option.some.injEq, Prod.mk.injEq] at h
          obtain ⟨⟨hab, hn0, he0, hv0⟩, hr0⟩ := h
          subst hab
          subst hn0
          subst he0
          subst hv0
          subst hr0
          obtain ⟨⟨hs, hl⟩, hn, he⟩ := tryNameVal_spec hT
          have hs2suf : s2 <:+ s :=
            ((List.suffix_cons b4 s2).trans
              ((List.suffix_cons b3 _).trans
                ((List.suffix_cons b2 _).trans
                  ((List.suffix_cons b1 _).trans hsuf1)))).trans
              (List.suffix_refl s)
          have hs3suf : s3 <:+ s := hsuf2.trans hs2suf
          refine ⟨⟨hs.trans hs3suf, ?_⟩, ⟨rfl, ?_⟩, hn, he⟩
          · have := hs3suf.length_le
            simp [appnameKey] at hlen2
            simp at this ⊢
            omega
          · intro b hb
            have hbs1 : b ∈ b1 :: b2 :: b3 :: b4 :: s2 := by
              simp at hb
              rcases hb with h1 | h1 | h1 | h1 <;> simp [h1]
            exact hsuf1.subset hbs1
        | none => simp only [hT] at h; exact Option.noConfusion h

/-! ### The scan loop -/

theorem findAllAux_eq_of_le :
    ∀ f1 : Nat, ∀ s : List Nat, ∀ f2 : Nat,
      s.length ≤ f1 → s.length ≤ f2 → findAllAux f1 s = findAllAux f2 s := by
  intro f1
  induction f1 with
  | zero =>
    intro s f2 h1 _
    have : s = [] := List.length_eq_zero.mp (Nat.le_zero.mp h1)
    subst this
    cases f2 <;> rfl
  | succ f ih =>
    intro s f2 h1 h2
    cases s with
    | nil => cases f2 <;> rfl
    | cons b tail =>
      cases f2 with
      | zero => simp at h2
      | succ f2' =>
        simp only [findAllAux]
        cases hM : matchEntry (b :: tail) with
        | some p =>
          obtain ⟨⟨ab, nm, ex, tg⟩, rest⟩ := p
          obtain ⟨⟨_, hlen⟩, _⟩ := matchEntry_spec hM
          simp at h1 h2 hlen
          dsimp only
          rw [ih rest f2' (by omega) (by omega)]
        | none =>
          simp at h1 h2
          exact ih tail f2' (by omega) (by omega)

theorem findAll_nil : findAll [] = [] := rfl

theorem findAll_cons_of_match {s : List Nat}
    {g : List Nat × List Nat × List Nat × List Nat} {rest : List Nat}
    (h : matchEntry s = some (g, rest)) :
    findAll s = g :: findAll rest := by
  cases s with
  | nil =>
    have : matchEntry [] = none := rfl
    rw [this] at h
    exact Option.noConfusion h
  | cons b tail =>
    obtain ⟨ab, nm, ex, tg⟩ := g
    obtain ⟨⟨_, hlen⟩, _⟩ := matchEntry_spec h
    show findAllAux (b :: tail).length (b :: tail) = _
    simp only [List.length_cons, findAllAux, h]
    simp at hlen
    rw [findAllAux_eq_of_le tail.length rest rest.length (by omega) le_rfl]
    rfl

theorem findAll_mem_spec {s : List Nat}
    {g : List Nat × List Nat × List Nat × List Nat}
    (hg : g ∈ findAll s) :
    (g.1.length = 4 ∧ ∀ b ∈ g.1, b ∈ s) ∧
    (g.2.1 ≠ [] ∧ ∀ b ∈ g.2.1, b ≠ 8) ∧
    (g.2.2.1 ≠ [] ∧ ∀ b ∈ g.2.2.1, b ≠ 8) := by
  rw [show findAll s = findAllAux s.length s from rfl] at hg
  generalize hf : s.length = fuel at hg
  have hle : s.length ≤ fuel := le_of_eq hf
  clear hf
  induction fuel generalizing s with
  | zero => simp [findAllAux] at hg
  | succ f ih =>
    cases s with
    | nil => simp [findAllAux] at hg
    | cons b tail =>
      simp only [findAllAux] at hg
      cases hM : matchEntry (b :: tail) with
      | some p =>
        obtain ⟨⟨ab0, nm0, ex0, tg0⟩, rest⟩ := p
        rw [hM] at hg
        obtain ⟨⟨hsuf, hlen⟩, hab, hn, he⟩ := matchEntry_spec hM
        simp only [List.mem_cons] at hg
        rcases hg with hg | hg
        · subst hg
          exact ⟨hab, hn, he⟩
        · simp at hlen hle
          obtain ⟨⟨h4, hmem⟩, hn2, he2⟩ := ih hg (by omega)
          exact ⟨⟨h4, fun x hx => hsuf.subset (hmem x hx)⟩, hn2, he2⟩
      | none =>
        rw [hM] at hg
        simp at hle
        obtain ⟨⟨h4, hmem⟩, hn2, he2⟩ := ih hg (by omega)
        exact ⟨⟨h4, fun x hx => List.mem_cons_of_mem b (hmem x hx)⟩, hn2, he2⟩

/-! ### Exact behaviour of the matcher on well-formed entries -/

theorem matchLit_head_ne (p : List Nat) {p0 b : Nat} {ps s : List Nat}
    (hp : p = p0 :: ps) (h0 : p0 = 0) (hb : b ≠ 0) :
    matchLit p (b :: s) = none := by
  subst hp h0
  simp [matchLit, ciEq_zero_right hb]

theorem tryTagVal_cons_step {b : Nat} {bs : List Nat} (hb : b ≠ 8)
    (hE : isEnd2 bs = none) :
    tryTagVal (b :: bs) =
      match tryTagVal bs with
      | some (v, r) => some (b :: v, r)
      | none => none := by
  simp [tryTagVal, hb, hE]

theorem tryTagVal_exact :
    ∀ tv : List Nat, tv ≠ [] → (∀ b ∈ tv, b ≠ 8) →
      ∀ rest : List Nat, tryTagVal (tv ++ 8 :: 8 :: rest) = some (tv, rest) := by
  intro tv
  induction tv with
  | nil => intro h; exact absurd rfl h
  | cons t tv ih =>
    intro _ h8 rest
    have ht : t ≠ 8 := h8 t (by simp)
    cases tv with
    | nil => simp [tryTagVal, ht, isEnd2]
    | cons t1 tv1 =>
      have ht1 : t1 ≠ 8 := h8 t1 (by simp)
      have hE : isEnd2 (t1 :: (tv1 ++ 8 :: 8 :: rest)) = none := isEnd2_ne ht1
      have hih := ih (by simp) (fun b hb => h8 b (by simp [hb])) rest
      simp only [List.cons_append] at hih ⊢
      rw [tryTagVal_cons_step ht hE, hih]

theorem matchTagsEnd_end2 (rest : List Nat) :
    matchTagsEnd (8 :: 8 :: rest) = some ([], rest) := by
  simp [matchTagsEnd, isEnd2]

theorem matchTagsEnd_tags {tv : List Nat} (hne : tv ≠ [])
    (h8 : ∀ b ∈ tv, b ≠ 8) (rest : List Nat) :
    matchTagsEnd (1 :: (tv ++ 8 :: 8 :: rest)) = some (tv, rest) := by
  simp [matchTagsEnd, tryTagVal_exact tv hne h8 rest]

theorem tryGap_cons_step {b : Nat} {bs : List Nat} (hC : gapCont bs = none) :
    tryGap (b :: bs) = tryGap bs := by
  simp [tryGap, hC]

theorem tryGap_exact :
    ∀ gap : List Nat, gap ≠ [] → (∀ b ∈ gap, b ≠ 0) →
      ∀ t v r, matchTagsEnd t = some (v, r) →
        tryGap (gap ++ gapTerm ++ t) = some (v, r) := by
  intro gap
  induction gap with
  | nil => intro h; exact absurd rfl h
  | cons g gap ih =>
    intro _ h0 t v r hM
    cases gap with
    | nil =>
      simp only [List.nil_append, List.cons_append, List.append_assoc]
      simp [tryGap, gapCont, matchLit_append, hM]
    | cons g1 gap1 =>
      have hg1 : g1 ≠ 0 := h0 g1 (by simp)
      have hC : gapCont (g1 :: (gap1 ++ (gapTerm ++ t))) = none := by
        simp only [gapCont]
        rw [matchLit_head_ne gapTerm rfl rfl hg1]
      have hih := ih (by simp) (fun b hb => h0 b (by simp [hb])) t v r hM
      simp only [List.cons_append, List.append_assoc] at hih ⊢
      rw [tryGap_cons_step hC, hih]

theorem tryExeVal_cons_step {b : Nat} {bs : List Nat} (hb : b ≠ 8)
    (hC : exeCont bs = none) :
    tryExeVal (b :: bs) =
      match tryExeVal bs with
      | some (e, v4, r) => some (b :: e, v4, r)
      | none => none := by
  simp [tryExeVal, hb, hC]

theorem tryExeVal_exact :
    ∀ ex : List Nat, ex ≠ [] → (∀ b ∈ ex, b ≠ 0 ∧ b ≠ 8) →
      ∀ G v r, tryGap G = some (v, r) →
        tryExeVal (ex ++ exeTerm ++ G) = some (ex, v, r) := by
  intro ex
  induction ex with
  | nil => intro h; exact absurd rfl h
  | cons x ex ih =>
    intro _ hb G v r hG
    have hx8 : x ≠ 8 := (hb x (by simp)).2
    cases ex with
    | nil =>
      simp only [List.nil_append, List.cons_append, List.append_assoc]
      simp [tryExeVal, hx8, exeCont, exeTerm, matchLit_append, hG,
        matchLit, ciEq_refl]
    | cons x1 ex1 =>
      have hx1 : x1 ≠ 0 := (hb x1 (by simp)).1
      have hC : exeCont (x1 :: (ex1 ++ (exeTerm ++ G))) = none := by
        simp only [exeCont]
        rw [matchLit_head_ne exeTerm rfl rfl hx1]
      have hih := ih (by simp) (fun b hb2 => hb b (by simp [hb2])) G v r hG
      simp only [List.cons_append, List.append_assoc] at hih ⊢
      rw [tryExeVal_cons_step hx8 hC, hih]

theorem tryNameVal_cons_step {b : Nat} {bs : List Nat} (hb : b ≠ 8)
    (hC : nameCont bs = none) :
    tryNameVal (b :: bs) =
      match tryNameVal bs with
      | some (n, e, v4, r) => some (b :: n, e, v4, r)
      | none => none := by
  simp [tryNameVal, hb, hC]

theorem tryNameVal_exact :
    ∀ nm : List Nat, nm ≠ [] → (∀ b ∈ nm, b ≠ 0 ∧ b ≠ 8) →
      ∀ E e v r, tryExeVal E = some (e, v, r) →
        tryNameVal (nm ++ nameTerm ++ E) = some (nm, e, v, r) := by
  intro nm
  induction nm with
  | nil => intro h; exact absurd rfl h
  | cons x nm ih =>
    intro _ hb E e v r hE
    have hx8 : x ≠ 8 := (hb x (by simp)).2
    cases nm with
    | nil =>
      simp only [List.nil_append, List.cons_append, List.append_assoc]
      simp [tryNameVal, hx8, nameCont, matchLit_append, hE]
    | cons x1 nm1 =>
      have hx1 : x1 ≠ 0 := (hb x1 (by simp)).1
      have hC : nameCont (x1 :: (nm1 ++ (nameTerm ++ E))) = none := by
        simp only [nameCont]
        rw [matchLit_head_ne nameTerm rfl rfl hx1]
      have hih := ih (by simp) (fun b hb2 => hb b (by simp [hb2])) E e v r hE
      simp only [List.cons_append, List.append_assoc] at hih ⊢
      rw [tryNameVal_cons_step hx8 hC, hih]

theorem matchTagsEnd_tagPart (tg : Option (List Nat)) (htg : tagOk tg)
    (rest : List Nat) :
    matchTagsEnd (tagPart tg ++ 8 :: 8 :: rest) =
      some ((tagPart tg).drop 1, rest) := by
  cases tg with
  | none => simpa [tagPart] using matchTagsEnd_end2 rest
  | some tv =>
    obtain ⟨hne, h8⟩ := htg
    simpa [tagPart] using matchTagsEnd_tags hne h8 rest

theorem matchEntry_mkEntry (e : SEntry) (rest : List Nat) (h : WFEntry e) :
    matchEntry (mkEntry e ++ rest) = some (grpOf e, rest) := by
  obtain ⟨ab, nm, ex, gp, tg⟩ := e
  obtain ⟨h4, hnm, hnmb, hex, hexb, hgp, hgpb, htg, -, -⟩ := h
  simp only at h4 hnm hnmb hex hexb hgp hgpb htg
  rcases ab with _ | ⟨b1, _ | ⟨b2, _ | ⟨b3, _ | ⟨b4, abt⟩⟩⟩⟩ <;> simp at h4
  subst h4
  have hT : matchTagsEnd (tagPart tg ++ 8 :: 8 :: rest) =
      some ((tagPart tg).drop 1, rest) := matchTagsEnd_tagPart tg htg rest
  have hG : tryGap (gp ++ gapTerm ++ (tagPart tg ++ 8 :: 8 :: rest)) =
      some ((tagPart tg).drop 1, rest) :=
    tryGap_exact gp hgp hgpb _ _ _ hT
  have hX : tryExeVal (ex ++ exeTerm ++
      (gp ++ gapTerm ++ (tagPart tg ++ 8 :: 8 :: rest))) =
      some (ex, (tagPart tg).drop 1, rest) :=
    tryExeVal_exact ex hex hexb _ _ _ hG
  have hN : tryNameVal (nm ++ nameTerm ++ (ex ++ exeTerm ++
      (gp ++ gapTerm ++ (tagPart tg ++ 8 :: 8 :: rest)))) =
      some (nm, ex, (tagPart tg).drop 1, rest) :=
    tryNameVal_exact nm hnm hnmb _ _ _ _ hX
  simp only [mkEntry, grpOf, List.append_assoc, List.cons_append,
    List.nil_append]
  simp only [matchEntry, matchLit_append]
  simp only [List.append_assoc] at hN
  rw [hN]

theorem findAll_mkEntry (e : SEntry) (rest : List Nat) (h : WFEntry e) :
    findAll (mkEntry e ++ rest) = grpOf e :: findAll rest :=
  findAll_cons_of_match (matchEntry_mkEntry e rest h)

theorem findAll_entries (es : List SEntry) (h : ∀ e ∈ es, WFEntry e) :
    findAll (es.map mkEntry).flatten = es.map grpOf := by
  induction es with
  | nil => rfl
  | cons e es ih =>
    simp only [List.map_cons, List.flatten_cons]
    rw [findAll_mkEntry e _ (h e (by simp))]
    rw [ih (fun x hx => h x (by simp [hx]))]

/-! ### The decoding loop -/

theorem decodeGames_entries (es : List SEntry)
    (h : ∀ e ∈ es, (utf8Decode e.name).isSome = true ∧
      (utf8Decode e.exe).isSome = true) :
    decodeGames (es.map grpOf) = some (es.map recordOf) := by
  induction es with
  | nil => rfl
  | cons e es ih =>
    obtain ⟨hn, he⟩ := h e (by simp)
    obtain ⟨nc, hnc⟩ := Option.isSome_iff_exists.mp hn
    obtain ⟨ec, hec⟩ := Option.isSome_iff_exists.mp he
    simp only [List.map_cons, grpOf, decodeGames, hnc, hec]
    rw [ih (fun x hx => h x (by simp [hx]))]
    simp [recordOf, hnc, hec]

theorem decodeGames_mem :
    ∀ ms gs, decodeGames ms = some gs →
      ∀ n e : String, ∀ a g : Nat, (n, e, a, g) ∈ gs →
        ∃ m ∈ ms, a = fromLEBytes m.1 ∧ g = grid_id_of (fromLEBytes m.1) := by
  intro ms
  induction ms with
  | nil =>
    intro gs h n e a g hm
    simp only [decodeGames, Option.some.injEq] at h
    subst h
    simp at hm
  | cons m ms ih =>
    intro gs h n e a g hm
    obtain ⟨ab, nb, eb, tb⟩ := m
    simp only [decodeGames] at h
    cases hn : utf8Decode nb with
    | none => rw [hn] at h; exact Option.noConfusion h
    | some nc =>
      rw [hn] at h
      cases he : utf8Decode eb with
      | none => rw [he] at h; exact Option.noConfusion h
      | some ec =>
        rw [he] at h
        cases hd : decodeGames ms with
        | none => rw [hd] at h; exact Option.noConfusion h
        | some gs1 =>
          rw [hd] at h
          simp only [Option.some.injEq] at h
          subst h
          simp only [List.mem_cons, Prod.mk.injEq] at hm
          rcases hm with ⟨-, -, ha, hg⟩ | hm
          · exact ⟨(ab, nb, eb, tb), by simp, ha, hg⟩
          · obtain ⟨m1, hm1, ha, hg⟩ := ih gs1 hd n e a g hm
            exact ⟨m1, by simp [hm1], ha, hg⟩

theorem decodeGames_none_of_fail :
    ∀ ms : List (List Nat × List Nat × List Nat × List Nat),
      ∀ m ∈ ms, utf8Decode m.2.1 = none → decodeGames ms = none := by
  intro ms
  induction ms with
  | nil => intro m hm; simp at hm
  | cons m0 ms ih =>
    intro m hm hfail
    obtain ⟨ab, nb, eb, tb⟩ := m0
    simp only [List.mem_cons] at hm
    rcases hm with hm | hm
    · subst hm
      simp only [decodeGames]
      rw [hfail]
    · simp only [decodeGames]
      cases hn : utf8Decode nb with
      | none => rfl
      | some nc =>
        cases he : utf8Decode eb with
        | none => rfl
        | some ec =>
          rw [ih m hm hfail]

theorem fromLEBytes_lt :
    ∀ l : List Nat, (∀ b ∈ l, b < 256) → fromLEBytes l < 256 ^ l.length := by
  intro l
  induction l with
  | nil => intro _; simp [fromLEBytes]
  | cons b t ih =>
    intro h
    have hb : b < 256 := h b (by simp)
    have ht := ih (fun x hx => h x (by simp [hx]))
    simp only [fromLEBytes, List.foldr_cons, List.length_cons] at ht ⊢
    have h2 : List.foldr (fun b acc => b + 256 * acc) 0 t + 1 ≤
        256 ^ t.length := ht
    have h3 := Nat.mul_le_mul_left 256 h2
    have h4 : 256 ^ (t.length + 1) = 256 * 256 ^ t.length := by
      rw [pow_succ]; ring
    omega

/-! ### Claim theorems -/

set_option maxRecDepth 10000

/-- Claim C1, counterexample: a container holding one decodable entry
followed by one entry whose appname byte 0xFF is invalid UTF-8 yields an
empty result (the decode error is caught at file level and discards the
whole batch), not the list with only the valid record, even though the
valid entry alone is extracted fine. -/
theorem C1_counterexample :
    get_non_steam_games (some (mkEntry entA ++ mkEntry entBad)) = [] ∧
    get_non_steam_games (some (mkEntry entA)) =
      [("h", "x", 1, 4328521728)] := by
  constructor <;> decide

/-- Claim C1, amended: when any matched record's appname bytes fail
UTF-8 decoding, get_non_steam_games returns the empty list for the
whole file (the UnicodeDecodeError is caught by the file-level except),
so the other well-formed records of that file are not returned. -/
theorem C1_amended (bytes : List Nat)
    (g : List Nat × List Nat × List Nat × List Nat)
    (hg : g ∈ findAll bytes) (hfail : utf8Decode g.2.1 = none) :
    get_non_steam_games (some bytes) = [] := by
  simp only [get_non_steam_games]
  rw [decodeGames_none_of_fail (findAll bytes) g hg hfail]

/-- Claim C1, witness for the amended theorem: the container holding the
single invalid-UTF-8 entry decodes to the empty list. -/
theorem C1_amended_witness :
    get_non_steam_games (some (mkEntry entBad)) = [] :=
  C1_amended (mkEntry entBad) ([3, 0, 0, 0], [255], [121], [])
    (by decide) (by decide)

/-- Claim C2, counterexample: once a game is resolved, the program
queries three art categories, not four, and with all three URLs present
it writes exactly {appid}p.png, {appid}_hero.png and {appid}_logo.png;
no wide-grid file {appid}.png is ever among the downloads. -/
theorem C2_counterexample :
    (artQueryPaths 42).length = 3 ∧
    downloadActions 305620 (some "g") (some "h") (some "l") =
      [("305620p.png", "g"), ("305620_hero.png", "h"),
       ("305620_logo.png", "l")] ∧
    ((downloadActions 305620 (some "g") (some "h") (some "l")).all
      (fun x => x.1 != "305620.png")) = true := by
  refine ⟨rfl, by decide, by decide⟩

/-- Claim C2, amended: for every resolved game the program queries three
art categories (grid, hero, logo) and, when all three URLs are present,
writes them to the three convention-named files {appid}p.png,
{appid}_hero.png and {appid}_logo.png; no wide-grid {appid}.png file is
produced. -/
theorem C2_amended (a : Nat) (g h l : String)
    (hg : g ≠ "") (hh : h ≠ "") (hl : l ≠ "") :
    downloadActions a (some g) (some h) (some l) =
      [(toString a ++ "p.png", g), (toString a ++ "_hero.png", h),
       (toString a ++ "_logo.png", l)] := by
  simp [downloadActions, isTruthy, hg, hh, hl]

/-- Claim C2, witness for the amended theorem at appid 7. -/
theorem C2_amended_witness :
    downloadActions 7 (some "g") (some "h") (some "l") =
      [("7p.png", "g"), ("7_hero.png", "h"), ("7_logo.png", "l")] :=
  C2_amended 7 "g" "h" "l" (by decide) (by decide) (by decide)

/-- Claim C3, counterexample: when the grid/portrait lookup yields none
but the hero and logo lookups yield URLs, nothing at all is downloaded
for the game (line 269 skips the whole game), contradicting the claim
that the hero and logo images are still downloaded. -/
theorem C3_counterexample :
    downloadActions 42 none (some "h") (some "l") = [] := by decide

/-- Claim C3, amended: the absence of a hero or logo URL does not block
the other downloads of a game — with the grid URL present, a missing
hero still downloads grid and logo, and a missing logo still downloads
grid and hero — but the absence of the grid/portrait URL skips the game
entirely: no image, including available hero and logo images, is
downloaded for it. -/
theorem C3_amended (a : Nat) (g h l : String) (ho : Option String)
    (hg : g ≠ "") (hh : h ≠ "") (hl : l ≠ "") :
    downloadActions a (some g) none (some l) =
      [(toString a ++ "p.png", g), (toString a ++ "_logo.png", l)] ∧
    downloadActions a (some g) (some h) none =
      [(toString a ++ "p.png", g), (toString a ++ "_hero.png", h)] ∧
    downloadActions a none ho (some l) = [] := by
  refine ⟨?_, ?_, rfl⟩
  · simp [downloadActions, isTruthy, hg, hl]
  · simp [downloadActions, isTruthy, hg, hh]

/-- Claim C3, witness for the amended theorem at appid 9: hero absent
downloads grid and logo, logo absent downloads grid and hero, grid
absent downloads nothing. -/
theorem C3_amended_witness :
    downloadActions 9 (some "g") none (some "l") =
      [("9p.png", "g"), ("9_logo.png", "l")] ∧
    downloadActions 9 (some "g") (some "h") none =
      [("9p.png", "g"), ("9_hero.png", "h")] ∧
    downloadActions 9 none (some "h") (some "l") = [] :=
  C3_amended 9 "g" "h" "l" (some "h") (by decide) (by decide) (by decide)

/-- Claim C4, counterexample: a zero-length appname value is rejected,
not accepted: the container whose single entry has an empty appname
value yields no match, while the same entry with a one-byte appname
matches. -/
theorem C4_counterexample :
    findAll (mkEntry entNoName) = [] ∧
    findAll (mkEntry entA) = [([1, 0, 0, 0], [104], [120], [])] := by
  constructor <;> decide

/-- Claim C4, amended: each extracted displayName and executablePath
value byte run is the shortest run of length at least 1, drawn from
bytes other than 0x08, that lets the rest of the entry pattern match; in
particular a zero-length value run is rejected and every extracted value
run is nonempty. -/
theorem C4_amended (s : List Nat)
    (g : List Nat × List Nat × List Nat × List Nat) (hg : g ∈ findAll s) :
    g.2.1 ≠ [] ∧ g.2.2.1 ≠ [] :=
  ⟨(findAll_mem_spec hg).2.1.1, (findAll_mem_spec hg).2.2.1⟩

/-- Claim C4, witness for the amended theorem: the record extracted from
the one-entry container has nonempty name and exe byte runs. -/
theorem C4_amended_witness :
    ([104] : List Nat) ≠ [] ∧ ([120] : List Nat) ≠ [] :=
  C4_amended (mkEntry entA) ([1, 0, 0, 0], [104], [120], []) (by decide)

/-- Claim C5, counterexample: with a Steam installation found and a
userdata directory containing no numeric user directories (here: empty,
and also with only a non-numeric subdirectory), main returns exit code
1, not 0. -/
theorem C5_counterexample :
    mainExitCode true true [] = 1 ∧
    mainExitCode true true [("steamapps", true)] = 1 := by
  constructor <;> decide

/-- Claim C5, amended: the process exit code is 0 exactly when a Steam
installation root was found and at least one numeric user directory
exists (even when zero games were processed); it is 1 when no
installation root is found, when no user directories are found, or when
the requests dependency is missing. -/
theorem C5_amended (sf ue : Bool) (entries : List (String × Bool)) :
    (mainExitCode sf ue entries = 0 ↔
      sf = true ∧ find_user_dirs ue entries ≠ []) ∧
    programExitCode false sf ue entries = 1 := by
  constructor
  · unfold mainExitCode
    cases sf
    · simp
    · simp only [Bool.true_eq_false, if_false, reduceIte]
      split <;> simp_all
  · rfl

/-- Claim C6, confirmed: a container made of N well-formed shortcut
entries yields exactly N records, in stream order: the extractor output
is the entrywise record list, and its length is N. -/
theorem C6_extractor_order (es : List SEntry) (h : ∀ e ∈ es, WFEntry e) :
    get_non_steam_games (some (es.map mkEntry).flatten) =
      es.map recordOf ∧
    (get_non_steam_games (some (es.map mkEntry).flatten)).length =
      es.length := by
  have hdec : ∀ e ∈ es, (utf8Decode e.name).isSome = true ∧
      (utf8Decode e.exe).isSome = true := by
    intro e he
    obtain ⟨-, -, -, -, -, -, -, -, h9, h10⟩ := h e he
    exact ⟨h9, h10⟩
  have hfa := findAll_entries es h
  have hdg := decodeGames_entries es hdec
  constructor
  · simp only [get_non_steam_games, hfa, hdg]
  · simp only [get_non_steam_games, hfa, hdg]
    simp

/-- Claim C6, witness: two concatenated well-formed entries yield two
records in stream order. -/
theorem C6_witness :
    get_non_steam_games (some ([entA, entB].map mkEntry).flatten) =
      [("h", "x", 1, 4328521728), ("w", "y", 2, 8623489024)] := by
  have h := (C6_extractor_order [entA, entB] (by decide)).1
  rw [h]
  decide

/-- Claim C7, confirmed: every record returned by the extractor carries
the grid identifier (applicationId << 32) | 0x02000000 computed from its
own applicationId; the derivation is the pure function grid_id_of. -/
theorem C7_grid_formula (file : Option (List Nat)) (n e : String)
    (a g : Nat) (h : (n, e, a, g) ∈ get_non_steam_games file) :
    g = Nat.lor (a <<< 32) 0x02000000 := by
  cases file with
  | none => simp [get_non_steam_games] at h
  | some bytes =>
    simp only [get_non_steam_games] at h
    cases hdg : decodeGames (findAll bytes) with
    | none => simp only [hdg] at h; simp at h
    | some gs =>
      simp only [hdg] at h
      obtain ⟨m, hm, ha, hg2⟩ := decodeGames_mem _ _ hdg n e a g h
      rw [hg2, ha]
      rfl

/-- Claim C7, witness: the record of the one-entry container has appid 1
and grid identifier (1 << 32) | 0x02000000 = 4328521728. -/
theorem C7_witness :
    (4328521728 : Nat) = Nat.lor ((1 : Nat) <<< 32) 0x02000000 :=
  C7_grid_formula (some (mkEntry entA)) "h" "x" 1 4328521728 (by decide)

/-- Claim C8, confirmed: an absent shortcuts file and an empty byte
content both yield the empty record list, and the extractor is a total
function, never an error. -/
theorem C8_empty_and_absent :
    get_non_steam_games none = [] ∧ get_non_steam_games (some []) = [] :=
  ⟨rfl, rfl⟩

/-- Claim C9, confirmed: for a file of genuine bytes (each below 256),
every extracted record's applicationId, decoded little-endian from the
4 captured appid bytes, is below 2^32 (and, being a natural number,
non-negative). -/
theorem C9_appid_32bit (bytes : List Nat) (hb : ∀ b ∈ bytes, b < 256)
    (n e : String) (a g : Nat)
    (h : (n, e, a, g) ∈ get_non_steam_games (some bytes)) :
    a < 2 ^ 32 := by
  simp only [get_non_steam_games] at h
  cases hdg : decodeGames (findAll bytes) with
  | none => simp only [hdg] at h; simp at h
  | some gs =>
    simp only [hdg] at h
    obtain ⟨m, hm, ha, -⟩ := decodeGames_mem _ _ hdg n e a g h
    obtain ⟨⟨h4, hmem⟩, -, -⟩ := findAll_mem_spec hm
    subst ha
    calc fromLEBytes m.1 < 256 ^ m.1.length :=
        fromLEBytes_lt _ (fun x hx => hb x (hmem x hx))
      _ = 2 ^ 32 := by rw [h4]; norm_num

/-- Claim C9, witness: the appid of the one-entry container is below
2^32. -/
theorem C9_witness : (1 : Nat) < 2 ^ 32 :=
  C9_appid_32bit (mkEntry entA) (by decide) "h" "x" 1 4328521728
    (by decide)

/-- Claim C10, confirmed: an otherwise well-formed entry whose appname
value contains the byte 0x08 yields no match at all (silent omission),
and in general no extracted record's appname or exe byte run ever
contains 0x08, since the value character class excludes it. -/
theorem C10_entry_with_8 :
    findAll (mkEntry entBS) = [] ∧
    ∀ s : List Nat, ∀ g : List Nat × List Nat × List Nat × List Nat,
      g ∈ findAll s →
        (∀ b ∈ g.2.1, b ≠ 8) ∧ ∀ b ∈ g.2.2.1, b ≠ 8 := by
  refine ⟨by decide, fun s g hg =>
    ⟨(findAll_mem_spec hg).2.1.2, (findAll_mem_spec hg).2.2.2⟩⟩

/-- Claim C10, witness: the bytes of the extracted record of the
one-entry container are not 0x08. -/
theorem C10_witness : (104 : Nat) ≠ 8 ∧ (120 : Nat) ≠ 8 := by
  have h := C10_entry_with_8.2 (mkEntry entA)
    ([1, 0, 0, 0], [104], [120], []) (by decide)
  exact ⟨h.1 104 (by decide), h.2 120 (by decide)⟩

end SteamGriddle
